import Mathlib

/-!
# Verification of the devito IR interval/box algebra and clustering layer

Shallow embedding of `devito/ir/support/domain.py`, `devito/ir/equations/equation.py`,
`devito/ir/clusters/algorithms.py`, `devito/ir/iet/utils.py` and `devito/dimension.py`,
together with proofs of the specification claims about them.

Machine integers in the Python source are unbounded (`int`), so interval bounds are
modelled as `Int`.  Python object equality (`__eq__` on `Dimension`, `Interval`,
`NullInterval`) is structural, matching Lean's derived `DecidableEq`.
-/

/-- Model of `devito/dimension.py`: a `Dimension` is a `SpaceDimension`, a
`TimeDimension`, or a `SteppingDimension` wrapping a parent dimension.
`is_Time`/`is_Space` of a stepping dimension are inherited from the parent
(`SteppingDimension.__init__`).  Identity is structural, as given by sympy's
cached-by-content symbol equality. -/
inductive Dim where
  | space (name : String)
  | time (name : String)
  | stepping (name : String) (parent : Dim)
deriving DecidableEq, Repr

namespace Dim

/-- `Dimension.is_Time` / `TimeDimension.is_Time`; a stepping dimension inherits
the trait from its parent (`self.is_Time = self.parent.is_Time`). -/
def is_Time : Dim → Bool
  | .space _ => false
  | .time _ => true
  | .stepping _ p => p.is_Time

/-- `Dimension.is_Stepping` (true exactly on `SteppingDimension`). -/
def is_Stepping : Dim → Bool
  | .stepping _ _ => true
  | _ => false

/-- `SteppingDimension.parent`.  Only ever accessed on stepping dimensions in the
source (`[d.parent for d in ordering if d.is_Stepping]`); on the other variants we
return the dimension itself, a value the guarded source code never observes. -/
def parentOf : Dim → Dim
  | .stepping _ p => p
  | d => d

end Dim

/-- Model of `AbstractInterval`'s two concrete subclasses in
`devito/ir/support/domain.py`: `NullInterval(dim)` and `Interval(dim, lower, upper)`.
Structural equality matches the Python `__eq__` (type, dim, and for `Interval`
also `lower`/`upper`). -/
inductive AInterval where
  | null (dim : Dim)
  | defined (dim : Dim) (lower upper : Int)
deriving DecidableEq, Repr

namespace AInterval

/-- `AbstractInterval.dim`. -/
def dim : AInterval → Dim
  | .null d => d
  | .defined d _ _ => d

/-- `AbstractInterval.is_Null`. -/
def is_Null : AInterval → Bool
  | .null _ => true
  | .defined _ _ _ => false

/-- `AbstractInterval.is_Defined`. -/
def is_Defined : AInterval → Bool
  | .null _ => false
  | .defined _ _ _ => true

/-- `Interval.min_extent = abs(upper - lower)`; a `NullInterval` carries no
`min_extent` attribute, we give it 0 (the code paths below never read it there,
mirroring the `AttributeError` guard in `Interval.overlap`). -/
def minExtent : AInterval → Nat
  | .null _ => 0
  | .defined _ l u => (u - l).natAbs

/-- `Interval.extent = dim.symbolic_size + self.min_extent`, evaluated at a
concrete value `sz` of the symbolic dimension size.  Both intervals compared in
the claims share one dimension, hence one `sz`. -/
def extent (sz : Nat) (i : AInterval) : Nat := sz + i.minExtent

/-- `Interval.overlap` / `NullInterval.overlap`.
`NullInterval.overlap` returns `False` unconditionally.  `Interval.overlap`
returns `False` when the dimensions differ, `False` when the argument has no
`min_extent` (the `AttributeError` branch, i.e. the argument is Null), and
otherwise applies the "touching-or-crossing" test with
`min_extent = max(self.min_extent, o.min_extent)`. -/
def overlap : AInterval → AInterval → Bool
  | .null _, _ => false
  | .defined _ _ _, .null _ => false
  | .defined d l u, .defined d' l' u' =>
    if d ≠ d' then false
    else
      let m : Int := (max (u - l).natAbs (u' - l').natAbs : Nat)
      (decide (l ≤ l') && decide (l' ≤ l + m)) || (decide (l ≥ l') && decide (l ≤ l' + m))

/-- `Interval.intersection` (and the inherited `AbstractInterval.intersection`,
which `NullInterval` uses: it rebuilds itself).  On overlap the result is
`Interval(dim, max(lowers), min(uppers))`, else `NullInterval(dim)`. -/
def intersection (a o : AInterval) : AInterval :=
  match a, o with
  | .null d, _ => .null d
  | .defined d _ _, .null _ => .null d
  | .defined d l u, .defined d' l' u' =>
    if (AInterval.defined d l u).overlap (.defined d' l' u') then
      .defined d (max l l') (min u u')
    else .null d

/-- `Interval.op(intervals, key)` with `key = 'intersection'`: a left fold of
`intersection` over the tail, starting from the head. -/
def op (base : AInterval) (args : List AInterval) : AInterval :=
  args.foldl intersection base

end AInterval

/-- Model of `Box` from `devito/ir/support/domain.py`: a bag of intervals.
`Box.__init__` stores `as_tuple(set(intervals))`; the Python `set` deduplicates
by structural equality, modelled by `List.dedup`.  `Box.__eq__` compares the
interval sets, modelled by `List.toFinset` equality. -/
structure BoxM where
  intervals : List AInterval
deriving DecidableEq, Repr

namespace BoxM

/-- The `Box(intervals)` constructor: `self.intervals = as_tuple(set(intervals))`. -/
def mk' (l : List AInterval) : BoxM := ⟨l.dedup⟩

/-- The set of dimensions carried by a box's intervals. -/
def dimSet (b : BoxM) : Finset Dim := (b.intervals.map AInterval.dim).toFinset

/-- `Box.__eq__`: `set(self.intervals) == set(o.intervals)`. -/
def beq (b o : BoxM) : Bool := decide (b.intervals.toFinset = o.intervals.toFinset)

end BoxM

/-- `Interval.union` / `NullInterval.union`: the result is either an interval or
a `Box` holding rebuilds of both operands, depending on whether the operands can
be merged on one dimension. -/
inductive IntervalOrBox where
  | itv (i : AInterval)
  | box (b : BoxM)
deriving DecidableEq, Repr

/-- `IntervalOrBox` is a `Box` (as opposed to an interval). -/
def IntervalOrBox.isBox : IntervalOrBox → Bool
  | .itv _ => false
  | .box _ => true

namespace AInterval

/-- `NullInterval.union` and `Interval.union`, by cases on the receiver:
* `NullInterval.union(o)`: `o._rebuild()` when the dimensions agree, else
  `Box([self._rebuild(), o._rebuild()])`;
* `Interval.union(o)`: the convex hull on overlap; `self._rebuild()` when `o`
  is Null over the same dimension; else `Box([self._rebuild(), o._rebuild()])`.
`_rebuild` is the structural identity in this pure model. -/
def union (a o : AInterval) : IntervalOrBox :=
  match a, o with
  | .null d, o => if d = o.dim then .itv o else .box (BoxM.mk' [.null d, o])
  | .defined d l u, .defined d' l' u' =>
    if (AInterval.defined d l u).overlap (.defined d' l' u') then
      .itv (.defined d (min l l') (max u u'))
    else .box (BoxM.mk' [.defined d l u, .defined d' l' u'])
  | .defined d l u, .null d' =>
    if d = d' then .itv (.defined d l u)
    else .box (BoxM.mk' [.defined d l u, .null d'])

end AInterval

section OverlapSymm

/-- `Interval.overlap` is symmetric (the spec's `a.overlap(b) == b.overlap(a)`). -/
theorem AInterval.overlap_comm (a b : AInterval) : a.overlap b = b.overlap a := by
  cases a with
  | null d => cases b <;> rfl
  | defined d l u =>
    cases b with
    | null d' => rfl
    | defined d' l' u' =>
      simp only [AInterval.overlap]
      by_cases h : d = d'
      · subst h
        simp only [ne_eq, not_true_eq_false, if_false]
        rw [Nat.max_comm]
        cases Decidable.em (l ≤ l') with
        | inl h1 => cases Decidable.em (l' ≤ l) with
          | inl h2 =>
            have : l = l' := le_antisymm h1 h2
            subst this; rfl
          | inr h2 => simp [h1, h2, le_of_lt (lt_of_not_le h2)]
        | inr h1 => cases Decidable.em (l' ≤ l) with
          | inl h2 => simp [h1, h2]
          | inr h2 => exact absurd (le_of_not_le h1) h2
      · have h' : ¬ d' = d := fun hh => h hh.symm
        simp [h, h']

/-- Defined-vs-defined overlap forces equal dimensions. -/
theorem AInterval.overlap_eq_dim {d d' : Dim} {l u l' u' : Int}
    (h : (AInterval.defined d l u).overlap (.defined d' l' u') = true) : d = d' := by
  by_contra hne
  simp [AInterval.overlap, hne] at h

end OverlapSymm

/-- C6: for every two intervals `a` and `b` over the same dimension, each either
Defined with integer bounds or Null, `a.intersection(b) == b.intersection(a)`:
`Interval.intersection` (together with the `NullInterval` default) is commutative. -/
theorem AInterval.intersection_comm (a b : AInterval) (h : a.dim = b.dim) :
    a.intersection b = b.intersection a := by
  cases a with
  | null d =>
    cases b with
    | null d' => simp only [AInterval.dim] at h; subst h; rfl
    | defined d' l' u' => simp only [AInterval.dim] at h; subst h; rfl
  | defined d l u =>
    cases b with
    | null d' => simp only [AInterval.dim] at h; subst h; rfl
    | defined d' l' u' =>
      simp only [AInterval.dim] at h; subst h
      simp only [AInterval.intersection]
      rw [AInterval.overlap_comm]
      by_cases hov : (AInterval.defined d l' u').overlap (.defined d l u) = true
      · simp [hov, max_comm, min_comm]
      · simp [hov]

/-- Witness for C6 at a concrete same-dimension input. -/
theorem AInterval.intersection_comm_witness :
    (AInterval.defined (.space "x") 0 3).intersection (.defined (.space "x") 2 5) =
      (AInterval.defined (.space "x") 2 5).intersection (.defined (.space "x") 0 3) :=
  AInterval.intersection_comm _ _ rfl

/-- C7 counterexample: with the inverted interval `Interval(x, 5, 0)` (as produced
by `Interval.negate` on `Interval(x, 0, 5)`), `a.union(b)` with `b = Interval(x, 0, 0)`
is the Interval `Interval(x, 0, 0)`, whose extent (at any concrete symbolic size,
here 0) is STRICTLY SMALLER than the extent of `a` — refuting the claim that a
union that is an Interval has extent at least both operands' extents. -/
theorem AInterval.union_extent_counterexample :
    (AInterval.union (.defined (.space "x") 5 0) (.defined (.space "x") 0 0) =
      .itv (.defined (.space "x") 0 0)) ∧
    AInterval.extent 0 (.defined (.space "x") 0 0) <
      AInterval.extent 0 (.defined (.space "x") 5 0) := by
  constructor
  · decide
  · decide

/-- C7 (amended): for two Defined intervals over the same dimension whose bounds
are well-formed (`lower ≤ upper`), whenever `a.union(b)` is itself an Interval its
extent is at least the extent of `a` and at least the extent of `b`, for every
value of the dimension's symbolic size. -/
theorem AInterval.union_extent_ge (d : Dim) (l u l' u' : Int)
    (h1 : l ≤ u) (h2 : l' ≤ u') (c : AInterval)
    (hc : (AInterval.defined d l u).union (.defined d l' u') = .itv c) (sz : Nat) :
    AInterval.extent sz (.defined d l u) ≤ AInterval.extent sz c ∧
    AInterval.extent sz (.defined d l' u') ≤ AInterval.extent sz c := by
  simp only [AInterval.union] at hc
  split at hc
  · have hc' : c = .defined d (min l l') (max u u') := by
      cases hc; rfl
    subst hc'
    simp only [AInterval.extent, AInterval.minExtent]
    constructor <;> omega
  · cases hc

/-- Witness for C7 (amended) at concrete overlapping well-formed intervals. -/
theorem AInterval.union_extent_ge_witness :
    AInterval.extent 0 (.defined (.space "x") 0 1) ≤
      AInterval.extent 0 (.defined (.space "x") 0 2) ∧
    AInterval.extent 0 (.defined (.space "x") 1 2) ≤
      AInterval.extent 0 (.defined (.space "x") 0 2) :=
  AInterval.union_extent_ge (.space "x") 0 1 1 2 (by decide) (by decide)
    (.defined (.space "x") 0 2) (by decide) 0

/-- C10: for two intervals over different dimensions, `union` yields not an
interval but a `Box` containing rebuilds of both operands; and in general the
union result is a `Box` exactly when the operands cannot be merged on a single
dimension (their dimensions differ, or both are Defined over one dimension but
fail the `overlap` test). -/
theorem AInterval.union_box_characterization (a b : AInterval) :
    (a.dim ≠ b.dim → a.union b = .box (BoxM.mk' [a, b])) ∧
    ((a.union b).isBox = true ↔
      a.dim ≠ b.dim ∨
        (a.is_Defined = true ∧ b.is_Defined = true ∧ a.overlap b = false)) := by
  cases a with
  | null d =>
    cases b with
    | null d' =>
      by_cases h : d = d'
      · subst h
        simp [AInterval.union, AInterval.dim, IntervalOrBox.isBox, AInterval.is_Defined]
      · simp [AInterval.union, AInterval.dim, IntervalOrBox.isBox, h, AInterval.is_Defined]
    | defined d' l' u' =>
      by_cases h : d = d'
      · subst h
        simp [AInterval.union, AInterval.dim, IntervalOrBox.isBox, AInterval.is_Defined]
      · simp [AInterval.union, AInterval.dim, IntervalOrBox.isBox, h, AInterval.is_Defined]
  | defined d l u =>
    cases b with
    | null d' =>
      by_cases h : d = d'
      · subst h
        simp [AInterval.union, AInterval.dim, IntervalOrBox.isBox, AInterval.is_Defined]
      · simp [AInterval.union, AInterval.dim, IntervalOrBox.isBox, h, AInterval.is_Defined]
    | defined d' l' u' =>
      by_cases hov : (AInterval.defined d l u).overlap (.defined d' l' u') = true
      · have hd : d = d' := AInterval.overlap_eq_dim hov
        subst hd
        simp [AInterval.union, hov, IntervalOrBox.isBox, AInterval.dim,
          AInterval.is_Defined]
      · have hov' : (AInterval.defined d l u).overlap (.defined d' l' u') = false :=
          Bool.eq_false_iff.mpr hov
        by_cases hd : d = d'
        · subst hd
          simp [AInterval.union, hov', IntervalOrBox.isBox, AInterval.dim,
            AInterval.is_Defined]
        · simp [AInterval.union, hov', IntervalOrBox.isBox, AInterval.dim, hd,
            AInterval.is_Defined]

/-- Witness for C10 at two concrete intervals over distinct dimensions. -/
theorem AInterval.union_box_characterization_witness :
    AInterval.union (.defined (.space "x") 0 0) (.defined (.space "y") 1 2) =
      .box (BoxM.mk' [.defined (.space "x") 0 0, .defined (.space "y") 1 2]) :=
  (AInterval.union_box_characterization _ _).1 (by decide)

namespace AInterval

/-- `Interval.subtract` / `NullInterval.subtract` (inherited default: rebuild):
`self._rebuild()` when the dimensions differ or the argument is Null, else
`Interval(dim, lower - o.lower, upper - o.upper)`. -/
def subtract (a o : AInterval) : AInterval :=
  match a, o with
  | .null d, _ => .null d
  | .defined d l u, .null _ => .defined d l u
  | .defined d l u, .defined d' l' u' =>
    if d ≠ d' then .defined d l u else .defined d (l - l') (u - u')

/-- `Interval.negate` / `NullInterval.negate` (inherited default: rebuild):
flips the sign of both bounds. -/
def negate : AInterval → AInterval
  | .null d => .null d
  | .defined d l u => .defined d (-l) (-u)

theorem intersection_dim (a o : AInterval) : (a.intersection o).dim = a.dim := by
  cases a with
  | null d => cases o <;> rfl
  | defined d l u =>
    cases o with
    | null d' => rfl
    | defined d' l' u' =>
      simp only [intersection]
      split <;> rfl

theorem op_dim (base : AInterval) (args : List AInterval) : (op base args).dim = base.dim := by
  induction args generalizing base with
  | nil => rfl
  | cons x xs ih =>
    show (op (base.intersection x) xs).dim = base.dim
    rw [ih, intersection_dim]

theorem subtract_dim (a o : AInterval) : (a.subtract o).dim = a.dim := by
  cases a with
  | null d => cases o <;> rfl
  | defined d l u =>
    cases o with
    | null d' => rfl
    | defined d' l' u' =>
      simp only [subtract]
      split <;> rfl

theorem negate_dim (a : AInterval) : a.negate.dim = a.dim := by
  cases a <;> rfl

end AInterval

namespace BoxM

/-- The distinct dimensions of an interval list: the key set of the Python dict
comprehension `{i.dim: ... for i in self.intervals}` (one key per distinct
dimension). -/
def dimKeys (l : List AInterval) : List Dim := (l.map AInterval.dim).dedup

/-- The interval the dict comprehension `{i.dim: i for i in self.intervals}`
(resp. `{i.dim: [i] ...}`) associates with key `d`: the last interval of
dimension `d` (later dict assignments overwrite earlier ones).  The default is
never reached when `d` is an actual key. -/
def baseFor (l : List AInterval) (d : Dim) : AInterval :=
  (l.reverse.find? (fun i => decide (i.dim = d))).getD (.null d)

/-- The intervals that `Box.intersection`'s loop appends to the mapper entry of
key `d`: every argument-box interval of dimension `d`, in argument order
(appends to `mapper.get(dim, [])` for a non-key dimension mutate a discarded
fresh list, so non-key dimensions contribute nothing). -/
def argsFor (bs : List BoxM) (d : Dim) : List AInterval :=
  ((bs.map BoxM.intervals).flatten).filter (fun i => decide (i.dim = d))

/-- `Box.intersection(*boxes)`: per-key fold-in over the calling box's
dimension keys; each key folds `Interval.op(..., 'intersection')` over the base
interval from `self` followed by the same-dimension intervals of the arguments. -/
def intersection (b : BoxM) (bs : List BoxM) : BoxM :=
  BoxM.mk' ((dimKeys b.intervals).map
    (fun d => AInterval.op (baseFor b.intervals d) (argsFor bs d)))

/-- `Box.subtract(o)`: for each interval of `o` whose dimension is a key of
`self`'s mapper, subtract it from `self`'s interval of that dimension. -/
def subtract (b o : BoxM) : BoxM :=
  BoxM.mk' ((o.intervals.filter
      (fun i => decide (i.dim ∈ b.intervals.map AInterval.dim))).map
    (fun i => (baseFor b.intervals i.dim).subtract i))

/-- `Box.negate()`: negate every interval. -/
def negate (b : BoxM) : BoxM := BoxM.mk' (b.intervals.map AInterval.negate)

/-- The box's intervals have pairwise distinct dimensions. -/
def dimsNodup (b : BoxM) : Prop := (b.intervals.map AInterval.dim).Nodup

instance (b : BoxM) : Decidable b.dimsNodup := by
  unfold dimsNodup; infer_instance

theorem baseFor_dim (l : List AInterval) (d : Dim) : (baseFor l d).dim = d := by
  unfold baseFor
  cases h : l.reverse.find? (fun i => decide (i.dim = d)) with
  | none => rfl
  | some x =>
    have := List.find?_some h
    simpa using this

theorem baseFor_eq_of_nodup {l : List AInterval} (hnd : (l.map AInterval.dim).Nodup)
    {i : AInterval} (hi : i ∈ l) : baseFor l i.dim = i := by
  unfold baseFor
  cases h : l.reverse.find? (fun j => decide (j.dim = i.dim)) with
  | none =>
    exfalso
    have : ∀ j ∈ l.reverse, ¬ (fun j => decide (j.dim = i.dim)) j = true := by
      exact fun j hj => by simpa using (List.find?_eq_none.mp h) j hj
    exact (this i (List.mem_reverse.mpr hi)) (by simp)
  | some x =>
    have hx : x.dim = i.dim := by simpa using List.find?_some h
    have hxl : x ∈ l := List.mem_reverse.mp (List.mem_of_find?_eq_some h)
    have := List.inj_on_of_nodup_map hnd hxl hi hx
    simp [this]

theorem dimSet_mk' (l : List AInterval) :
    (mk' l).dimSet = (l.map AInterval.dim).toFinset := by
  apply List.toFinset.ext
  intro x
  simp [mk', dimSet, List.mem_dedup]

/-- The dimensions of the intervals produced by `Box.intersection`'s per-key map
are exactly the calling box's dimension keys. -/
theorem intersection_map_dim (b : BoxM) (bs : List BoxM) :
    ((dimKeys b.intervals).map
        (fun d => AInterval.op (baseFor b.intervals d) (argsFor bs d))).map AInterval.dim =
      dimKeys b.intervals := by
  rw [List.map_map]
  have h : ∀ d ∈ dimKeys b.intervals,
      (AInterval.dim ∘ fun d => AInterval.op (baseFor b.intervals d) (argsFor bs d)) d = d := by
    intro d _
    simp [Function.comp, AInterval.op_dim, baseFor_dim]
  rw [List.map_congr_left h]
  simp

/-- `Box.intersection` preserves the calling box's dimension set (shared helper). -/
theorem intersection_dimSet (b : BoxM) (bs : List BoxM) :
    (b.intersection bs).dimSet = b.dimSet := by
  unfold intersection
  rw [dimSet_mk', intersection_map_dim]
  unfold dimKeys dimSet
  exact List.toFinset.ext (fun _ => List.mem_dedup)

/-- A box built from an interval list with pairwise-distinct dimensions has
pairwise-distinct dimensions. -/
theorem mk'_dimsNodup {l : List AInterval} (h : (l.map AInterval.dim).Nodup) :
    (BoxM.mk' l).dimsNodup :=
  h.sublist ((List.dedup_sublist l).map AInterval.dim)

/-- Under distinct dimensions, `Box.intersection` maps each interval of the
calling box to the fold of intersections with the matching argument intervals. -/
theorem intersection_intervals_of_nodup {b : BoxM} (hnd : b.dimsNodup) (bs : List BoxM) :
    (b.intersection bs).intervals =
      b.intervals.map (fun i => AInterval.op i (argsFor bs i.dim)) := by
  unfold intersection mk'
  have hkeys : dimKeys b.intervals = b.intervals.map AInterval.dim :=
    List.Nodup.dedup hnd
  rw [hkeys, List.map_map]
  have hcongr : ∀ i ∈ b.intervals,
      ((fun d => AInterval.op (baseFor b.intervals d) (argsFor bs d)) ∘ AInterval.dim) i =
        AInterval.op i (argsFor bs i.dim) := by
    intro i hi
    simp only [Function.comp]
    rw [baseFor_eq_of_nodup hnd hi]
  rw [List.map_congr_left hcongr]
  have hdims : (b.intervals.map (fun i => AInterval.op i (argsFor bs i.dim))).map AInterval.dim
      = b.intervals.map AInterval.dim := by
    rw [List.map_map]
    apply List.map_congr_left
    intro i _
    simp [Function.comp, AInterval.op_dim]
  have hnodup : (b.intervals.map (fun i => AInterval.op i (argsFor bs i.dim))).Nodup :=
    List.Nodup.of_map AInterval.dim (hdims ▸ hnd)
  exact List.Nodup.dedup hnodup

/-- Filtering for a dimension absent from the list yields the empty list. -/
theorem filter_dim_eq_nil_of_not_mem {l : List AInterval} (d : Dim)
    (hd : d ∉ l.map AInterval.dim) :
    l.filter (fun x => decide (x.dim = d)) = [] := by
  apply List.filter_eq_nil_iff.mpr
  intro x hx
  simp only [decide_eq_true_eq]
  intro hEq
  exact hd (hEq ▸ List.mem_map_of_mem AInterval.dim hx)

/-- In a list with pairwise-distinct dimensions, filtering for the dimension of
a member yields exactly that member. -/
theorem filter_dim_eq_of_nodup {l : List AInterval} (hnd : (l.map AInterval.dim).Nodup)
    {j : AInterval} (hj : j ∈ l) :
    l.filter (fun x => decide (x.dim = j.dim)) = [j] := by
  induction l with
  | nil => cases hj
  | cons a l ih =>
    simp only [List.map_cons, List.nodup_cons] at hnd
    obtain ⟨ha, hl⟩ := hnd
    rcases List.mem_cons.mp hj with heq | hjl
    · rw [heq]
      rw [List.filter_cons_of_pos (by simp), filter_dim_eq_nil_of_not_mem a.dim ha]
    · have hne : ¬ (a.dim = j.dim) := by
        intro hEq
        exact ha (hEq ▸ List.mem_map_of_mem AInterval.dim hjl)
      rw [List.filter_cons_of_neg (by simp [hne])]
      exact ih hl hjl

/-- `argsFor` over a single argument box is a plain filter of its intervals. -/
theorem argsFor_singleton (b2 : BoxM) (d : Dim) :
    argsFor [b2] d = b2.intervals.filter (fun i => decide (i.dim = d)) := by
  simp [argsFor]

/-- `Box.intersection` output always has pairwise-distinct dimensions: the
result holds one interval per mapper key. -/
theorem intersection_dimsNodup (b : BoxM) (bs : List BoxM) :
    (b.intersection bs).dimsNodup := by
  apply BoxM.mk'_dimsNodup
  rw [BoxM.intersection_map_dim]
  exact List.nodup_dedup _

end BoxM

/-- C1: for every `Box` `b` and every sequence of argument boxes, the dimension
set of `b.intersection(*boxes)` is exactly the dimension set of `b`: a dimension
present only in an argument box never appears in the result, regardless of the
arguments and their order. -/
theorem BoxM.intersection_preserves_dimSet (b : BoxM) (bs : List BoxM) :
    (b.intersection bs).dimSet = b.dimSet :=
  BoxM.intersection_dimSet b bs

/-- C2 counterexample: intersecting `Box([Interval(x, 0, 0)])` with
`Box([Interval(y, 1, 2)])` drops dimension `y` entirely — the `y` interval,
although present in exactly one operand, does NOT pass through to the result,
refuting the claim that any dimension present in only one operand passes
through unmodified. -/
theorem BoxM.intersection_drop_counterexample :
    Dim.space "y" ∉ ((BoxM.mk' [.defined (.space "x") 0 0]).intersection
      [BoxM.mk' [.defined (.space "y") 1 2]]).dimSet ∧
    AInterval.defined (.space "y") 1 2 ∉
      ((BoxM.mk' [.defined (.space "x") 0 0]).intersection
        [BoxM.mk' [.defined (.space "y") 1 2]]).intervals := by
  constructor
  · decide
  · decide

/-- C2 (amended): `b1.intersection(b2)` merges per dimension: (i) an interval of
`b1` over a dimension absent from `b2` passes through to the result unmodified;
(ii) a dimension present only in the argument `b2` is dropped from the result;
(iii) intervals over a shared dimension are merged by `Interval.intersection`.
(Boxes are assumed well-formed: one interval per dimension.) -/
theorem BoxM.intersection_per_dim (b1 b2 : BoxM)
    (h1 : b1.dimsNodup) (h2 : b2.dimsNodup) :
    (∀ i ∈ b1.intervals, (∀ j ∈ b2.intervals, j.dim ≠ i.dim) →
      i ∈ (b1.intersection [b2]).intervals) ∧
    (∀ j ∈ b2.intervals, (∀ i ∈ b1.intervals, i.dim ≠ j.dim) →
      j.dim ∉ (b1.intersection [b2]).dimSet) ∧
    (∀ i ∈ b1.intervals, ∀ j ∈ b2.intervals, i.dim = j.dim →
      i.intersection j ∈ (b1.intersection [b2]).intervals) := by
  refine ⟨?_, ?_, ?_⟩
  · intro i hi hdrop
    rw [BoxM.intersection_intervals_of_nodup h1]
    have hargs : BoxM.argsFor [b2] i.dim = [] := by
      rw [BoxM.argsFor_singleton]
      apply List.filter_eq_nil_iff.mpr
      intro j hj
      simp only [decide_eq_true_eq]
      exact hdrop j hj
    have : AInterval.op i (BoxM.argsFor [b2] i.dim) = i := by
      rw [hargs]; rfl
    exact this ▸ List.mem_map_of_mem _ hi
  · intro j hj habs
    rw [BoxM.intersection_dimSet]
    unfold BoxM.dimSet
    simp only [List.mem_toFinset, List.mem_map]
    rintro ⟨i, hi, hdim⟩
    exact habs i hi hdim
  · intro i hi j hj hdim
    rw [BoxM.intersection_intervals_of_nodup h1]
    have hargs : BoxM.argsFor [b2] i.dim = [j] := by
      rw [BoxM.argsFor_singleton, hdim]
      exact BoxM.filter_dim_eq_of_nodup h2 hj
    have : AInterval.op i (BoxM.argsFor [b2] i.dim) = i.intersection j := by
      rw [hargs]; rfl
    exact this ▸ List.mem_map_of_mem _ hi

/-- Witness for C2 (amended) at concrete boxes: the `x` interval passes through,
the `y` dimension is dropped, and the shared dimension `z` is merged by
`Interval.intersection`. -/
theorem BoxM.intersection_per_dim_witness :
    AInterval.defined (.space "x") 0 0 ∈
      ((BoxM.mk' [.defined (.space "x") 0 0, .defined (.space "z") 0 5]).intersection
        [BoxM.mk' [.defined (.space "y") 1 2, .defined (.space "z") 1 4]]).intervals ∧
    Dim.space "y" ∉
      ((BoxM.mk' [.defined (.space "x") 0 0, .defined (.space "z") 0 5]).intersection
        [BoxM.mk' [.defined (.space "y") 1 2, .defined (.space "z") 1 4]]).dimSet ∧
    (AInterval.defined (.space "z") 0 5).intersection (.defined (.space "z") 1 4) ∈
      ((BoxM.mk' [.defined (.space "x") 0 0, .defined (.space "z") 0 5]).intersection
        [BoxM.mk' [.defined (.space "y") 1 2, .defined (.space "z") 1 4]]).intervals := by
  obtain ⟨hpass, hdrop, hmerge⟩ :=
    BoxM.intersection_per_dim
      (BoxM.mk' [.defined (.space "x") 0 0, .defined (.space "z") 0 5])
      (BoxM.mk' [.defined (.space "y") 1 2, .defined (.space "z") 1 4])
      (by decide) (by decide)
  refine ⟨hpass (AInterval.defined (.space "x") 0 0) (by decide) (by decide),
    hdrop (AInterval.defined (.space "y") 1 2) (by decide) (by decide),
    hmerge (AInterval.defined (.space "z") 0 5) (by decide)
      (AInterval.defined (.space "z") 1 4) (by decide) (by decide)⟩

/-- C9 counterexample: the `Box` constructor from an arbitrary interval list
deduplicates only structurally equal intervals, so
`Box([Interval(x, 0, 0), Interval(x, 1, 1)])` holds TWO intervals over the same
dimension `x` — refuting the claim that every Box, however constructed, has at
most one interval per dimension. -/
theorem BoxM.constructor_dup_dim_counterexample :
    ¬ (BoxM.mk' [.defined (.space "x") 0 0, .defined (.space "x") 1 1]).dimsNodup := by
  decide

/-- C9 (amended): `Box.intersection` always yields at most one interval per
dimension; `negate` preserves distinct dimensions; `subtract` preserves them
when both operands have distinct dimensions; and the constructor preserves them
when the input interval list has pairwise-distinct dimensions (but an arbitrary
input list can produce duplicate dimensions, per the counterexample). -/
theorem BoxM.dimsNodup_closure (b o : BoxM) (bs : List BoxM) (l : List AInterval)
    (hb : b.dimsNodup) (ho : o.dimsNodup) (hl : (l.map AInterval.dim).Nodup) :
    (b.intersection bs).dimsNodup ∧ b.negate.dimsNodup ∧ (b.subtract o).dimsNodup ∧
      (BoxM.mk' l).dimsNodup := by
  refine ⟨BoxM.intersection_dimsNodup b bs, ?_, ?_, BoxM.mk'_dimsNodup hl⟩
  · apply BoxM.mk'_dimsNodup
    have : (b.intervals.map AInterval.negate).map AInterval.dim =
        b.intervals.map AInterval.dim := by
      rw [List.map_map]
      exact List.map_congr_left (fun i _ => by simp [Function.comp, AInterval.negate_dim])
    rw [this]; exact hb
  · apply BoxM.mk'_dimsNodup
    have hmap : ((o.intervals.filter
          (fun i => decide (i.dim ∈ b.intervals.map AInterval.dim))).map
        (fun i => (BoxM.baseFor b.intervals i.dim).subtract i)).map AInterval.dim =
        (o.intervals.filter
          (fun i => decide (i.dim ∈ b.intervals.map AInterval.dim))).map AInterval.dim := by
      rw [List.map_map]
      exact List.map_congr_left
        (fun i _ => by simp [Function.comp, AInterval.subtract_dim, BoxM.baseFor_dim])
    show (((o.intervals.filter _).map _).map AInterval.dim).Nodup
    rw [hmap]
    exact ho.sublist ((List.filter_sublist o.intervals).map AInterval.dim)

/-- Witness for C9 (amended) at concrete boxes. -/
theorem BoxM.dimsNodup_closure_witness :
    ((BoxM.mk' [.defined (.space "x") 0 0]).intersection
        [BoxM.mk' [.defined (.space "x") 1 1]]).dimsNodup ∧
    (BoxM.mk' [.defined (.space "x") 0 0]).negate.dimsNodup ∧
    ((BoxM.mk' [.defined (.space "x") 0 0]).subtract
        (BoxM.mk' [.defined (.space "x") 1 1])).dimsNodup ∧
    (BoxM.mk' [AInterval.defined (.space "x") 0 0]).dimsNodup :=
  BoxM.dimsNodup_closure
    (BoxM.mk' [.defined (.space "x") 0 0]) (BoxM.mk' [.defined (.space "x") 1 1])
    [BoxM.mk' [.defined (.space "x") 1 1]] [AInterval.defined (.space "x") 0 0]
    (by decide) (by decide) (by decide)

/-- Step 3 of the data-space derivation in `Eq.__new__`
(`devito/ir/equations/equation.py`):
`parents = [d.parent for d in ordering if d.is_Stepping]`. -/
def steppingParents (ordering : List Dim) : List Dim :=
  (ordering.filter Dim.is_Stepping).map Dim.parentOf

/-- `ordering = [i for i in ordering if i not in parents]` — the source comment
reads "Do not track parent dimensions". -/
def orderingDropParents (ordering : List Dim) : List Dim :=
  ordering.filter (fun i => decide (i ∉ steppingParents ordering))

/-- Step 4 of the data-space derivation: package
`Box([Interval(i, min(stencil.get(i)), max(stencil.get(i))) for i in ordering])`.
The stencil lookup is abstracted as a per-dimension pair
(min observed offset, max observed offset). -/
def dspaceBox (stencil : Dim → Int × Int) (ordering : List Dim) : BoxM :=
  BoxM.mk' ((orderingDropParents ordering).map
    (fun i => .defined i (stencil i).1 (stencil i).2))

/-- C3 counterexample: for an ordering holding the stepping dimension `t`
(parent `time`), the parent `time`, and `x`, the derived dspace keys its
intervals by the STEPPING dimension and drops the PARENT — the opposite of the
claim that stepping dimensions are collapsed down to their parent identity. -/
theorem dspaceBox_stepping_counterexample :
    (Dim.stepping "t" (Dim.time "time")) ∈ (dspaceBox (fun _ => (0, 0))
        [Dim.stepping "t" (Dim.time "time"), Dim.time "time", Dim.space "x"]).dimSet ∧
    (Dim.time "time") ∉ (dspaceBox (fun _ => (0, 0))
        [Dim.stepping "t" (Dim.time "time"), Dim.time "time", Dim.space "x"]).dimSet := by
  constructor
  · decide
  · decide

/-- C3 (amended): the derived dspace Box tracks exactly the dimensions of the
canonical ordering that are NOT the parent of some stepping dimension of the
ordering: parent dimensions are removed and stepping dimensions are kept
(keyed as themselves, not collapsed to the parent). -/
theorem dspaceBox_dims (stencil : Dim → Int × Int) (ordering : List Dim) (d : Dim) :
    d ∈ (dspaceBox stencil ordering).dimSet ↔
      d ∈ ordering ∧ d ∉ steppingParents ordering := by
  unfold dspaceBox
  rw [BoxM.dimSet_mk']
  simp [orderingDropParents, List.mem_filter, AInterval.dim, List.mem_map]

/-- The accumulator loop of `filter_iterations` (`devito/ir/iet/utils.py`) with
`stop='any'`, i.e. `stop = lambda: len(filtered) > 0`: each item is appended to
`filtered` or `off` according to the predicate `key`, and the loop breaks as
soon as `stop()` holds, returning `filtered`. -/
def filterIterationsAnyGo (key : α → Bool) : List α → List α → List α → List α
  | [], filtered, _off => filtered
  | i :: rest, filtered, off =>
    let filtered' := if key i then filtered ++ [i] else filtered
    let off' := if key i then off else off ++ [i]
    if 0 < filtered'.length then filtered'
    else filterIterationsAnyGo key rest filtered' off'

/-- `filter_iterations(tree, key, stop='any')`. -/
def filterIterationsAny (tree : List α) (key : α → Bool) : List α :=
  filterIterationsAnyGo key tree [] []

/-- C8 failing input: on a two-item list whose items BOTH satisfy the predicate,
`filter_iterations(..., stop='any')` returns only the first item — the loop
breaks as soon as one match has been collected, even though the current item
satisfies the predicate, contradicting the function's own docstring ("Return as
soon as `key(o)` is False and at least one item has been collected") and hence
the claim. -/
theorem filterIterationsAny_stops_after_first_match :
    filterIterationsAny [0, 1] (fun _ => true) = [0] ∧
    filterIterationsAny [0, 1] (fun _ => true) ≠ [0, 1] := by
  constructor
  · rfl
  · decide

/-- The quantities `groupby` (`devito/ir/clusters/algorithms.py`) reads from the
external dependence oracle for a pair (earlier cluster `candidate`, incoming
cluster `c`): `fusible` abbreviates
`candidate.ispace == c.ispace and all(is_local(i, candidate, c, clusters) ...)`,
`anti` is the carried non-increment anti-dependence set
`scope.d_anti.carried() - scope.d_anti.increment`, `cause` projects a dependence
to its causing dimension, and `flowBlocked` abbreviates
`set(flow).intersection(processed.atomics[candidate])` being nonempty. -/
structure FusionOracle (C Dep Dm : Type) where
  fusible : C → C → Bool
  anti : C → C → List Dep
  cause : Dep → Dm
  flowBlocked : C → C → List Dm → Bool

/-- Outcome of `groupby`'s backward scan over previously accepted clusters for
one incoming cluster: fused into a target, stopped by an anti-dependence
(reporting the cause dimensions added to the candidate's atomics), or left to
be appended as a standalone cluster. -/
inductive ScanOutcome (C Dm : Type) where
  | fused (target : C)
  | blocked (causeDims : List Dm)
  | unplaced
deriving DecidableEq

/-- The `for candidate in reversed(list(processed))` scan in `groupby`, with the
list argument already in reverse recency order: fuse into the first legal
target; on an illegal target with a carried non-increment anti-dependence, stop
and report the cause dimensions (`processed.atomics[c].update(set(anti.cause))`
followed by `break`); on a flow dependence hitting the target's atomics, stop;
otherwise keep scanning older targets. -/
def scanFuse (O : FusionOracle C Dep Dm) (atomics : C → List Dm) (c : C) :
    List C → ScanOutcome C Dm
  | [] => .unplaced
  | t :: rest =>
    if O.fusible t c then .fused t
    else if !(O.anti t c).isEmpty then .blocked ((O.anti t c).map O.cause)
    else if O.flowBlocked t c (atomics t) then .unplaced
    else scanFuse O atomics c rest

/-- C5: when the backward scan reaches a target `t` for which fusion is illegal
(`fusible` false) and a carried non-increment anti-dependence exists, the scan
stops at `t` reporting exactly the anti-dependence cause dimensions (which
`groupby` adds to the candidate's atomics) — the result does not depend on the
clusters older than `t` (`rest` is universally quantified and absent from the
result), so no earlier cluster is scanned. -/
theorem scanFuse_blocks_on_anti {C Dep Dm : Type} (O : FusionOracle C Dep Dm)
    (atomics : C → List Dm) (c : C) (pre : List C) (t : C) (rest : List C)
    (hpre : ∀ p ∈ pre, O.fusible p c = false ∧ O.anti p c = [] ∧
      O.flowBlocked p c (atomics p) = false)
    (ht1 : O.fusible t c = false) (ht2 : O.anti t c ≠ []) :
    scanFuse O atomics c (pre ++ t :: rest) = .blocked ((O.anti t c).map O.cause) := by
  induction pre with
  | nil =>
    have hne : (O.anti t c).isEmpty = false := by
      cases h : O.anti t c with
      | nil => exact absurd h ht2
      | cons a l => rfl
    simp [scanFuse, ht1, hne]
  | cons p pre ih =>
    obtain ⟨h1, h2, h3⟩ := hpre p (List.mem_cons_self p pre)
    have : scanFuse O atomics c ((p :: pre) ++ t :: rest) =
        scanFuse O atomics c (pre ++ t :: rest) := by
      simp [scanFuse, h1, h2, h3]
    rw [this]
    exact ih (fun q hq => hpre q (List.mem_cons_of_mem p hq))

/-- Witness for C5 at a concrete oracle: the anti-dependence at target 0 blocks
the scan for candidate 1 and reports cause dimension 7, regardless of the older
clusters 2 and 3. -/
theorem scanFuse_blocks_on_anti_witness :
    scanFuse
      (⟨fun _ _ => false, fun t c => if t = 0 && c = 1 then [7] else [], id,
        fun _ _ _ => false⟩ : FusionOracle Nat Nat Nat)
      (fun _ => []) 1 [0, 2, 3] = .blocked [7] :=
  scanFuse_blocks_on_anti _ _ 1 [] 0 [2, 3]
    (fun p hp => absurd hp (List.not_mem_nil p)) (by decide) (by decide)

namespace AInterval

/-- The "non-expanding" order on intervals over one dimension: `Ile a b` holds
when `a` is a possible intersection-shrink of `b` — same dimension, and either
`a` is Null or both are Defined with `a`'s range nested in `b`'s
(lower moved up, upper moved down). -/
def Ile : AInterval → AInterval → Prop
  | .null d, .null d' => d = d'
  | .null d, .defined d' _ _ => d = d'
  | .defined _ _ _, .null _ => False
  | .defined d l u, .defined d' l' u' => d = d' ∧ l' ≤ l ∧ u ≤ u'

theorem Ile_trans {a b c : AInterval} (h1 : Ile a b) (h2 : Ile b c) : Ile a c := by
  cases a with
  | null d =>
    cases b with
    | null d' =>
      cases c with
      | null d'' => exact Eq.trans h1 h2
      | defined d'' l'' u'' => exact Eq.trans h1 h2
    | defined d' l' u' =>
      cases c with
      | null d'' => exact False.elim h2
      | defined d'' l'' u'' => exact Eq.trans h1 (And.left h2)
  | defined d l u =>
    cases b with
    | null d' => exact False.elim h1
    | defined d' l' u' =>
      cases c with
      | null d'' => exact False.elim h2
      | defined d'' l'' u'' =>
        exact ⟨Eq.trans (And.left h1) (And.left h2),
          le_trans h2.right.left h1.right.left, le_trans h1.right.right h2.right.right⟩

/-- One intersection step never expands the receiver. -/
theorem intersection_Ile (a x : AInterval) : Ile (a.intersection x) a := by
  cases a with
  | null d => cases x <;> exact rfl
  | defined d l u =>
    cases x with
    | null d' => exact rfl
    | defined d' l' u' =>
      simp only [intersection]
      split
      · exact ⟨rfl, le_max_left _ _, min_le_left _ _⟩
      · exact rfl

/-- The fold `Interval.op(..., 'intersection')` never expands the base. -/
theorem op_Ile (base : AInterval) (args : List AInterval) : Ile (op base args) base := by
  induction args generalizing base with
  | nil =>
    cases base with
    | null d => exact rfl
    | defined d l u => exact ⟨rfl, le_refl _, le_refl _⟩
  | cons x xs ih =>
    exact Ile_trans (ih (base.intersection x)) (intersection_Ile base x)

/-- Bound values carried by an interval. -/
def Ibounds : AInterval → Finset Int
  | .null _ => ∅
  | .defined _ l u => {l, u}

/-- One intersection step only produces bounds drawn from the operands. -/
theorem intersection_Ibounds (a x : AInterval) :
    Ibounds (a.intersection x) ⊆ Ibounds a ∪ Ibounds x := by
  cases a with
  | null d => cases x <;> simp [intersection, Ibounds]
  | defined d l u =>
    cases x with
    | null d' => simp [intersection, Ibounds]
    | defined d' l' u' =>
      simp only [intersection]
      split
      · intro s hs
        simp only [Ibounds, Finset.mem_insert, Finset.mem_singleton] at hs
        rcases hs with h | h
        · rcases max_choice l l' with hm | hm <;>
            simp [Ibounds, h, hm]
        · rcases min_choice u u' with hm | hm <;>
            simp [Ibounds, h, hm]
      · simp [Ibounds]

/-- Bound values carried by a list of intervals. -/
def Lbounds (l : List AInterval) : Finset Int :=
  l.foldr (fun i acc => Ibounds i ∪ acc) ∅

theorem Lbounds_mem_subset {l : List AInterval} {i : AInterval} (hi : i ∈ l) :
    Ibounds i ⊆ Lbounds l := by
  induction l with
  | nil => cases hi
  | cons a l ih =>
    rcases List.mem_cons.mp hi with heq | hmem
    · rw [heq]
      exact Finset.subset_union_left
    · exact (ih hmem).trans Finset.subset_union_right

theorem Lbounds_append (l1 l2 : List AInterval) :
    Lbounds (l1 ++ l2) = Lbounds l1 ∪ Lbounds l2 := by
  induction l1 with
  | nil => simp [Lbounds]
  | cons a l1 ih =>
    simp only [List.cons_append, Lbounds, List.foldr_cons] at *
    rw [ih, Finset.union_assoc]

theorem Lbounds_filter_subset (p : AInterval → Bool) (l : List AInterval) :
    Lbounds (l.filter p) ⊆ Lbounds l := by
  induction l with
  | nil => simp [Lbounds]
  | cons a l ih =>
    by_cases hp : p a
    · rw [List.filter_cons_of_pos hp]
      exact Finset.union_subset_union (Finset.Subset.refl _) ih
    · rw [List.filter_cons_of_neg hp]
      exact ih.trans Finset.subset_union_right

/-- The fold's bounds are drawn from the base and the arguments. -/
theorem op_Ibounds (base : AInterval) (args : List AInterval) :
    Ibounds (op base args) ⊆ Ibounds base ∪ Lbounds args := by
  induction args generalizing base with
  | nil => simp [op, Lbounds]
  | cons x xs ih =>
    intro s hs
    have hL : Lbounds (x :: xs) = Ibounds x ∪ Lbounds xs := rfl
    have h1 := ih (base.intersection x) hs
    rw [Finset.mem_union] at h1
    rcases h1 with h | h
    · have h2 := intersection_Ibounds base x h
      rw [Finset.mem_union] at h2
      rcases h2 with h' | h'
      · exact Finset.mem_union_left _ h'
      · rw [hL]
        exact Finset.mem_union_right _ (Finset.mem_union_left _ h')
    · rw [hL]
      exact Finset.mem_union_right _ (Finset.mem_union_right _ h)

/-- Rank of an interval relative to a finite universe `S` of bound values:
Null intervals rank 0; a Defined interval ranks by how much room its bounds
leave inside `S`.  Strictly decreases along every proper shrink whose bounds
stay inside `S`. -/
def imeasure (S : Finset Int) : AInterval → Nat
  | .null _ => 0
  | .defined _ l u =>
    (S.filter (fun s => l < s)).card + (S.filter (fun s => s < u)).card + 1

theorem imeasure_mono (S : Finset Int) {a b : AInterval} (h : Ile a b) :
    imeasure S a ≤ imeasure S b := by
  cases a with
  | null d => cases b <;> simp [imeasure]
  | defined d l u =>
    cases b with
    | null d' => exact False.elim h
    | defined d' l' u' =>
      obtain ⟨-, hl, hu⟩ := h
      simp only [imeasure]
      have h1 : (S.filter (fun s => l < s)).card ≤ (S.filter (fun s => l' < s)).card := by
        apply Finset.card_le_card
        intro s hs
        rw [Finset.mem_filter] at *
        exact ⟨hs.1, lt_of_le_of_lt hl hs.2⟩
      have h2 : (S.filter (fun s => s < u)).card ≤ (S.filter (fun s => s < u')).card := by
        apply Finset.card_le_card
        intro s hs
        rw [Finset.mem_filter] at *
        exact ⟨hs.1, lt_of_lt_of_le hs.2 hu⟩
      omega

theorem imeasure_strict (S : Finset Int) {a b : AInterval} (h : Ile a b) (hne : a ≠ b)
    (hbd : Ibounds a ⊆ S) : imeasure S a < imeasure S b := by
  cases a with
  | null d =>
    cases b with
    | null d' =>
      exact absurd (by rw [show d = d' from h]) hne
    | defined d' l' u' => simp [imeasure]
  | defined d l u =>
    cases b with
    | null d' => exact False.elim h
    | defined d' l' u' =>
      obtain ⟨hd, hl, hu⟩ := h
      subst hd
      have hlu : l' < l ∨ u < u' := by
        by_contra hcon
        push_neg at hcon
        exact hne (by rw [le_antisymm hl hcon.1, le_antisymm hu hcon.2])
      have hlS : l ∈ S := hbd (by simp [Ibounds])
      have huS : u ∈ S := hbd (by simp [Ibounds])
      have h1 : (S.filter (fun s => l < s)).card ≤ (S.filter (fun s => l' < s)).card :=
        Finset.card_le_card (by
          intro s hs
          rw [Finset.mem_filter] at *
          exact ⟨hs.1, lt_of_le_of_lt hl hs.2⟩)
      have h2 : (S.filter (fun s => s < u)).card ≤ (S.filter (fun s => s < u')).card :=
        Finset.card_le_card (by
          intro s hs
          rw [Finset.mem_filter] at *
          exact ⟨hs.1, lt_of_lt_of_le hs.2 hu⟩)
      rcases hlu with hstrict | hstrict
      · have h1' : (S.filter (fun s => l < s)).card < (S.filter (fun s => l' < s)).card := by
          apply Finset.card_lt_card
          constructor
          · intro s hs
            rw [Finset.mem_filter] at *
            exact ⟨hs.1, lt_trans hstrict hs.2⟩
          · intro hsub
            have := hsub (Finset.mem_filter.mpr ⟨hlS, hstrict⟩)
            rw [Finset.mem_filter] at this
            exact lt_irrefl l this.2
        simp only [imeasure]
        omega
      · have h2' : (S.filter (fun s => s < u)).card < (S.filter (fun s => s < u')).card := by
          apply Finset.card_lt_card
          constructor
          · intro s hs
            rw [Finset.mem_filter] at *
            exact ⟨hs.1, lt_trans hs.2 hstrict⟩
          · intro hsub
            have := hsub (Finset.mem_filter.mpr ⟨huS, hstrict⟩)
            rw [Finset.mem_filter] at this
            exact lt_irrefl u this.2
        simp only [imeasure]
        omega

end AInterval

/-- Pointwise-dominated list sums with one strict member are strictly smaller. -/
theorem map_sum_lt_map_sum {α : Type} (l : List α) (f g : α → Nat)
    (hle : ∀ i ∈ l, f i ≤ g i) (hex : ∃ i ∈ l, f i < g i) :
    (l.map f).sum < (l.map g).sum := by
  induction l with
  | nil => obtain ⟨i, hi, -⟩ := hex; cases hi
  | cons a l ih =>
    simp only [List.map_cons, List.sum_cons]
    have hrest_le : (l.map f).sum ≤ (l.map g).sum := by
      apply List.sum_le_sum
      intro i hi
      exact hle i (List.mem_cons_of_mem a hi)
    obtain ⟨i, hi, hstrict⟩ := hex
    rcases List.mem_cons.mp hi with heq | hmem
    · have : f a < g a := heq ▸ hstrict
      omega
    · have := ih (fun j hj => hle j (List.mem_cons_of_mem a hj)) ⟨i, hmem, hstrict⟩
      have ha := hle a (List.mem_cons_self a l)
      omega

namespace BoxM

/-- Bound values carried by a box. -/
def bbounds (b : BoxM) : Finset Int := AInterval.Lbounds b.intervals

/-- Measure of a box relative to a bound universe `S`. -/
def bmeasure (S : Finset Int) (b : BoxM) : Nat := (b.intervals.map (AInterval.imeasure S)).sum

theorem flatten_Lbounds_subset {bs : List BoxM} {S : Finset Int}
    (hbs : ∀ x ∈ bs, bbounds x ⊆ S) :
    AInterval.Lbounds ((bs.map BoxM.intervals).flatten) ⊆ S := by
  induction bs with
  | nil => simp [AInterval.Lbounds]
  | cons b bs ih =>
    simp only [List.map_cons, List.flatten_cons]
    rw [AInterval.Lbounds_append]
    apply Finset.union_subset
    · exact hbs b (List.mem_cons_self b bs)
    · exact ih (fun x hx => hbs x (List.mem_cons_of_mem b hx))

theorem Lbounds_map_subset {l : List AInterval} {S : Finset Int}
    (g : AInterval → AInterval)
    (h : ∀ i ∈ l, AInterval.Ibounds (g i) ⊆ S) :
    AInterval.Lbounds (l.map g) ⊆ S := by
  induction l with
  | nil => simp [AInterval.Lbounds]
  | cons a l ih =>
    simp only [List.map_cons]
    have hL : AInterval.Lbounds (g a :: l.map g) =
        AInterval.Ibounds (g a) ∪ AInterval.Lbounds (l.map g) := rfl
    rw [hL]
    apply Finset.union_subset
    · exact h a (List.mem_cons_self a l)
    · exact ih (fun i hi => h i (List.mem_cons_of_mem a hi))

/-- If the set-based equality check of `Box.__eq__` fails after an intersection,
some interval of the calling box was properly changed by its fold. -/
theorem exists_changed_of_beq_false {b : BoxM} {bs : List BoxM} (hnd : b.dimsNodup)
    (hbeq : BoxM.beq (b.intersection bs) b = false) :
    ∃ i ∈ b.intervals, AInterval.op i (BoxM.argsFor bs i.dim) ≠ i := by
  by_contra hcon
  push_neg at hcon
  have hmap : b.intervals.map (fun i => AInterval.op i (argsFor bs i.dim)) = b.intervals := by
    rw [List.map_congr_left hcon]
    simp
  have hsame : (b.intersection bs).intervals = b.intervals := by
    rw [intersection_intervals_of_nodup hnd, hmap]
  rw [beq, hsame] at hbeq
  simp at hbeq

/-- A changed intersection strictly decreases the box measure, provided all
bounds live in the universe `S`. -/
theorem intersection_bmeasure_lt {b : BoxM} {bs : List BoxM} {S : Finset Int}
    (hnd : b.dimsNodup) (hb : bbounds b ⊆ S) (hbs : ∀ x ∈ bs, bbounds x ⊆ S)
    (hbeq : BoxM.beq (b.intersection bs) b = false) :
    bmeasure S (b.intersection bs) < bmeasure S b := by
  rw [bmeasure, bmeasure, intersection_intervals_of_nodup hnd, List.map_map]
  apply map_sum_lt_map_sum
  · intro i _
    exact AInterval.imeasure_mono S (AInterval.op_Ile i _)
  · obtain ⟨i0, hi0, hne⟩ := exists_changed_of_beq_false hnd hbeq
    refine ⟨i0, hi0, ?_⟩
    apply AInterval.imeasure_strict S (AInterval.op_Ile i0 _) hne
    have h1 := AInterval.op_Ibounds i0 (argsFor bs i0.dim)
    have h2 : AInterval.Ibounds i0 ⊆ S := (AInterval.Lbounds_mem_subset hi0).trans hb
    have h3 : AInterval.Lbounds (argsFor bs i0.dim) ⊆ S :=
      (AInterval.Lbounds_filter_subset _ _).trans (flatten_Lbounds_subset hbs)
    exact h1.trans (Finset.union_subset h2 h3)

/-- Intersection keeps every bound inside the universe `S`. -/
theorem intersection_bbounds_subset {b : BoxM} {bs : List BoxM} {S : Finset Int}
    (hnd : b.dimsNodup) (hb : bbounds b ⊆ S) (hbs : ∀ x ∈ bs, bbounds x ⊆ S) :
    bbounds (b.intersection bs) ⊆ S := by
  rw [bbounds, intersection_intervals_of_nodup hnd]
  apply Lbounds_map_subset
  intro i hi
  have h1 := AInterval.op_Ibounds i (argsFor bs i.dim)
  have h2 : AInterval.Ibounds i ⊆ S := (AInterval.Lbounds_mem_subset hi).trans hb
  have h3 : AInterval.Lbounds (argsFor bs i.dim) ⊆ S :=
    (AInterval.Lbounds_filter_subset _ _).trans (flatten_Lbounds_subset hbs)
  exact h1.trans (Finset.union_subset h2 h3)

end BoxM

/-- State of the `while queue:` loop in `clusterize`
(`devito/ir/clusters/algorithms.py`): the per-equation iteration spaces
(`mapper[e].ispace`) and the work queue of equation indices. -/
structure PropState (n : Nat) where
  isp : Fin n → BoxM
  queue : List (Fin n)

/-- A fuelled run of the `while queue:` loop of `clusterize`: pop the head
`target`, coerce its space by intersecting with the spaces of every trace
member (`mapper[target].ispace.intersection(*ispaces)`), and when the result
differs (per `Box.__eq__`'s set comparison) store the update and re-enqueue the
trace members not already queued.  Returns `none` when the fuel runs out before
the queue empties.  `Schedule`'s re-sorting of the stored intervals is dropped:
every observation the loop makes — the set-based equality test, and the
per-dimension bases and arguments under the one-interval-per-dimension
invariant — is insensitive to the interval order inside a box. -/
def propLoop (trace : Fin n → List (Fin n)) : Nat → PropState n → Option (Fin n → BoxM)
  | 0, st =>
    match st.queue with
    | [] => some st.isp
    | _ :: _ => none
  | k+1, st =>
    match st.queue with
    | [] => some st.isp
    | target :: rest =>
      if BoxM.beq ((st.isp target).intersection ((trace target).map st.isp))
          (st.isp target) then
        propLoop trace k ⟨st.isp, rest⟩
      else
        propLoop trace k
          ⟨fun i => if i = target then
              (st.isp target).intersection ((trace target).map st.isp)
            else st.isp i,
           rest ++ ((trace target).filter (fun i => decide (i ∉ rest)))⟩

/-- Total measure of a propagation state's iteration spaces. -/
def tmeasure (S : Finset Int) {n : Nat} (isp : Fin n → BoxM) : Nat :=
  ∑ e : Fin n, BoxM.bmeasure S (isp e)

theorem propLoop_term_aux {n : Nat} (trace : Fin n → List (Fin n)) (S : Finset Int) :
    ∀ m q (st : PropState n), tmeasure S st.isp < m → st.queue.length < q →
      (∀ e, (st.isp e).dimsNodup) → (∀ e, BoxM.bbounds (st.isp e) ⊆ S) →
      ∃ k, (propLoop trace k st).isSome = true := by
  intro m
  induction m with
  | zero =>
    intro q st hm
    exact absurd hm (Nat.not_lt_zero _)
  | succ m ihm =>
    intro q
    induction q with
    | zero =>
      intro st _ hq
      exact absurd hq (Nat.not_lt_zero _)
    | succ q ihq =>
      intro st hm hq hnd hbd
      cases hqueue : st.queue with
      | nil => exact ⟨0, by simp [propLoop, hqueue]⟩
      | cons target rest =>
        by_cases hbeq : BoxM.beq ((st.isp target).intersection ((trace target).map st.isp))
            (st.isp target) = true
        · have hq' : rest.length < q := by
            have h := hq
            rw [hqueue] at h
            simpa using h
          obtain ⟨k, hk⟩ := ihq ⟨st.isp, rest⟩ hm hq' hnd hbd
          refine ⟨k+1, ?_⟩
          simp only [propLoop, hqueue]
          rw [if_pos hbeq]
          exact hk
        · have hbeqf : BoxM.beq ((st.isp target).intersection ((trace target).map st.isp))
              (st.isp target) = false := Bool.eq_false_iff.mpr hbeq
          have hbsS : ∀ x ∈ (trace target).map st.isp, BoxM.bbounds x ⊆ S := by
            intro x hx
            obtain ⟨j, -, rfl⟩ := List.mem_map.mp hx
            exact hbd j
          have hlt : BoxM.bmeasure S
                ((st.isp target).intersection ((trace target).map st.isp)) <
              BoxM.bmeasure S (st.isp target) :=
            BoxM.intersection_bmeasure_lt (hnd target) (hbd target) hbsS hbeqf
          have htm : tmeasure S (fun i => if i = target then
                (st.isp target).intersection ((trace target).map st.isp)
              else st.isp i) < tmeasure S st.isp := by
            apply Finset.sum_lt_sum
            · intro i _
              by_cases hi : i = target
              · subst hi
                simpa using le_of_lt hlt
              · simp [hi]
            · exact ⟨target, Finset.mem_univ _, by simpa using hlt⟩
          have hnd' : ∀ e, ((fun i => if i = target then
                (st.isp target).intersection ((trace target).map st.isp)
              else st.isp i) e).dimsNodup := by
            intro e
            by_cases he : e = target
            · subst he
              simpa using BoxM.intersection_dimsNodup _ _
            · simpa [he] using hnd e
          have hbd' : ∀ e, BoxM.bbounds ((fun i => if i = target then
                (st.isp target).intersection ((trace target).map st.isp)
              else st.isp i) e) ⊆ S := by
            intro e
            by_cases he : e = target
            · subst he
              simpa using BoxM.intersection_bbounds_subset (hnd e) (hbd e) hbsS
            · simpa [he] using hbd e
          have hm' : tmeasure S (fun i => if i = target then
                (st.isp target).intersection ((trace target).map st.isp)
              else st.isp i) < m := by
            have h := hm
            omega
          obtain ⟨k, hk⟩ := ihm
            ((rest ++ ((trace target).filter (fun i => decide (i ∉ rest)))).length + 1)
            ⟨fun i => if i = target then
                (st.isp target).intersection ((trace target).map st.isp)
              else st.isp i,
             rest ++ ((trace target).filter (fun i => decide (i ∉ rest)))⟩
            hm' (Nat.lt_succ_self _) hnd' hbd'
          refine ⟨k+1, ?_⟩
          simp only [propLoop, hqueue]
          rw [if_neg (by simp [hbeqf])]
          exact hk

/-- C4: for every finite family of equations with an arbitrary fixed dependence
trace relation, the space-propagation work-queue loop of `clusterize`
terminates — some finite fuel empties the queue — because `Box.intersection` is
monotonically non-expanding over each equation's fixed finite dimension set,
with all interval bounds confined to the finitely many bounds present
initially.  Initial spaces are assumed well-formed (one interval per dimension),
as produced by the per-equation `dspace.negate()`. -/
theorem clusterize_fixpoint_terminates {n : Nat} (trace : Fin n → List (Fin n))
    (init : Fin n → BoxM) (hnd : ∀ e, (init e).dimsNodup) :
    ∃ k, (propLoop trace k ⟨init, List.finRange n⟩).isSome = true := by
  apply propLoop_term_aux trace (Finset.univ.biUnion (fun e => BoxM.bbounds (init e)))
    (tmeasure (Finset.univ.biUnion (fun e => BoxM.bbounds (init e))) init + 1)
    ((List.finRange n).length + 1)
  · exact Nat.lt_succ_self _
  · exact Nat.lt_succ_self _
  · exact hnd
  · intro e
    exact Finset.subset_biUnion_of_mem (fun e => BoxM.bbounds (init e)) (Finset.mem_univ e)

/-- Witness for C4 at a one-equation system whose trace contains itself. -/
theorem clusterize_fixpoint_terminates_witness :
    ∃ k, (propLoop (fun _ : Fin 1 => ([0] : List (Fin 1))) k
      ⟨fun _ => BoxM.mk' [.defined (.space "x") 0 0], List.finRange 1⟩).isSome = true := by
  apply clusterize_fixpoint_terminates
  decide
